import Mathlib

/-!
Verification of the TaskManager reminder tool (src/TaskManager.py).

The Python source is shallowly embedded: strings are lists of characters,
the regular expression `\b([01]?\d|2[0-3]):([0-5]\d)\b` used by the line
parser is embedded as an explicit backtracking matcher with Python's
leftmost / alternation-priority semantics, `re.sub` as deletion of all
non-overlapping matches scanning left to right, `str.strip` and friends as
end-trimming with a character-set predicate.  Character classes (`\d`,
`\w`, `\s`) are embedded over the character ranges this repository's data
actually uses: ASCII digits, ASCII letters, underscore and the Cyrillic
block for word characters, ASCII whitespace for `\s`.  File I/O is
embedded as an explicit file-system record (existence flag, modification
time, readable content where `none` models a read that raises an OSError),
float timestamps as integers (only their ordering matters), and the
asynchronous monitor loop as a function over a script of per-tick
outcomes.  Fallible constructors return `Option`.
-/

namespace TaskManager

/-- ASCII digit, the `\d` class of the source's patterns. -/
def isDigitC (c : Char) : Bool := decide (48 ≤ c.toNat ∧ c.toNat ≤ 57)

/-- Numeric value of an ASCII digit character. -/
def digitVal (c : Char) : Nat := c.toNat - 48

/-- The character class `[01]`. -/
def isZeroOne (c : Char) : Bool := decide (c.toNat = 48 ∨ c.toNat = 49)

/-- The literal `2`. -/
def isTwo (c : Char) : Bool := decide (c.toNat = 50)

/-- The character class `[0-3]`. -/
def isZeroToThree (c : Char) : Bool := decide (48 ≤ c.toNat ∧ c.toNat ≤ 51)

/-- The character class `[0-5]`. -/
def isZeroToFive (c : Char) : Bool := decide (48 ≤ c.toNat ∧ c.toNat ≤ 53)

/-- The literal `:`. -/
def isColon (c : Char) : Bool := decide (c.toNat = 58)

/-- Whitespace as stripped by `str.strip()` and matched by `\s`
(ASCII range used by this repository). -/
def isSpaceC (c : Char) : Bool :=
  decide (c.toNat = 32 ∨ (9 ≤ c.toNat ∧ c.toNat ≤ 13))

/-- Word characters for `\b` (ASCII letters, digits, underscore, and the
Cyrillic block U+0400-U+04FF that this repository's task texts use). -/
def isWordChar (c : Char) : Bool :=
  isDigitC c ||
  decide (65 ≤ c.toNat ∧ c.toNat ≤ 90) ||
  decide (97 ≤ c.toNat ∧ c.toNat ≤ 122) ||
  decide (c.toNat = 95) ||
  decide (1024 ≤ c.toNat ∧ c.toNat ≤ 1279)

/-- The two-character set of `str.strip(' -')`. -/
def isSpaceDash (c : Char) : Bool := decide (c.toNat = 32 ∨ c.toNat = 45)

/-- Trim characters satisfying `p` from the front of a list. -/
def dropLeading (p : Char → Bool) : List Char → List Char
  | [] => []
  | c :: cs => if p c then dropLeading p cs else c :: cs

/-- Trim characters satisfying `p` from the back of a list. -/
def dropTrailing (p : Char → Bool) (l : List Char) : List Char :=
  (dropLeading p l.reverse).reverse

/-- `str.strip(set)`: trim characters of the set from both ends. -/
def stripBoth (p : Char → Bool) (l : List Char) : List Char :=
  dropTrailing p (dropLeading p l)

/-- `str.strip()` with no argument: trim whitespace from both ends. -/
def stripWS (l : List Char) : List Char := stripBoth isSpaceC l

/-- `re.sub(r'\s+', ' ', s)` scanning with a flag that records whether
the previous character was inside a whitespace run: the first character
of each maximal run becomes one space, the rest of the run is dropped. -/
def collapseAux (inRun : Bool) : List Char → List Char
  | [] => []
  | c :: cs =>
    if isSpaceC c then
      if inRun then collapseAux true cs else ' ' :: collapseAux true cs
    else c :: collapseAux false cs

/-- `re.sub(r'\s+', ' ', s)`: collapse every maximal run of whitespace
into a single space. -/
def collapseWS (l : List Char) : List Char := collapseAux false l

/-- `text.split('\n')`: split at every newline, keeping empty segments. -/
def splitNl : List Char → List (List Char)
  | [] => [[]]
  | c :: cs =>
    match splitNl cs with
    | [] => [[c]]
    | s :: ss => if c = '\n' then [] :: s :: ss else (c :: s) :: ss

/-!
The search pattern `\b([01]?\d|2[0-3]):([0-5]\d)\b` (line 74 of the
source).  `tryMatchAt prevWord l` attempts a match at the head of `l`,
where `prevWord` says whether the character immediately before `l` in the
scanned string is a word character; the result is the matched substring
and the remainder.  Python's backtracking order is kept: the optional
`[01]` is tried present first, then absent, then the alternative
`2[0-3]`.
-/

/-- `\b` after the final minute digit (a word character): holds when the
next character is absent or not a word character. -/
def tailBoundary : List Char → Bool
  | [] => true
  | c :: _ => !isWordChar c

/-- Match the suffix `:([0-5]\d)\b` of the search pattern. -/
def finishMM : List Char → Option (List Char × List Char)
  | [] => none
  | [_] => none
  | [_, _] => none
  | c :: m1 :: m2 :: rest =>
    if isColon c ∧ isZeroToFive m1 ∧ isDigitC m2 ∧ tailBoundary rest then
      some ([c, m1, m2], rest)
    else none

/-- Attempt the search pattern at the current position.  The match always
starts with a digit (a word character), so the leading `\b` holds exactly
when the previous character is not a word character. -/
def tryMatchAt : Bool → List Char → Option (List Char × List Char)
  | true, _ => none
  | false, [] => none
  | false, [_] => none
  | false, c1 :: c2 :: rest2 =>
    (if isZeroOne c1 ∧ isDigitC c2 then
      (finishMM rest2).map fun p => (c1 :: c2 :: p.1, p.2)
    else none) <|>
    (if isDigitC c1 then
      (finishMM (c2 :: rest2)).map fun p => (c1 :: p.1, p.2)
    else none) <|>
    (if isTwo c1 ∧ isZeroToThree c2 then
      (finishMM rest2).map fun p => (c1 :: c2 :: p.1, p.2)
    else none)

/-- `re.search(time_pattern, line)` scanning from the current position:
returns the text before the first match, the match, and the remainder.
`prevWord` tells whether the character before the scan position is a word
character (false at the start of the string). -/
def searchFrom (prevWord : Bool) (l : List Char) :
    Option (List Char × List Char × List Char) :=
  match tryMatchAt prevWord l with
  | some (m, rest) => some ([], m, rest)
  | none =>
    match l with
    | [] => none
    | c :: cs => (searchFrom (isWordChar c) cs).map fun p => (c :: p.1, p.2.1, p.2.2)

/-- `re.search(time_pattern, line)`: leftmost match, with Python's
alternation-order preference at that position. -/
def searchTime (l : List Char) : Option (List Char × List Char × List Char) :=
  searchFrom false l

/-- `re.sub(time_pattern, '', line)` scanning from the current position:
delete every non-overlapping match, left to right, resuming right after
each match (the scan works on the original string, so the character
before the resume point is the last character of the deleted match, a
digit).  The recursion is driven by a fuel argument that bounds the
remaining length; `subAllFrom` below instantiates it. -/
def subAllFuel : Nat → Bool → List Char → List Char
  | 0, _, l => l
  | fuel + 1, prevWord, l =>
    match tryMatchAt prevWord l with
    | some (_m, rest) => subAllFuel fuel true rest
    | none =>
      match l with
      | [] => []
      | c :: cs => c :: subAllFuel fuel (isWordChar c) cs

/-- The deletion scan of `re.sub(time_pattern, '', line)` started with
enough fuel for the whole input. -/
def subAllFrom (prevWord : Bool) (l : List Char) : List Char :=
  subAllFuel l.length prevWord l

/-- `re.sub(time_pattern, '', line)` on a whole line. -/
def subTimeAll (l : List Char) : List Char := subAllFrom false l

/-- `datetime.time`: the validated time-of-day value.  The parser always
produces zero seconds, so hour and minute suffice; comparison of Python
`time` values is lexicographic. -/
structure TimeOfDay where
  hour : Nat
  minute : Nat
deriving DecidableEq, Repr

/-- Python `time` order `now >= self.time` restricted to hour/minute. -/
def timeLe (a b : TimeOfDay) : Bool :=
  decide (a.hour < b.hour ∨ (a.hour = b.hour ∧ a.minute ≤ b.minute))

/-- Take up to two leading ASCII digits (the greedy behaviour of a
two-digit `strptime` directive). -/
def takeDigits2 : List Char → List Char × List Char
  | [] => ([], [])
  | c :: cs =>
    if isDigitC c then
      match cs with
      | d :: ds => if isDigitC d then ([c, d], ds) else ([c], cs)
      | [] => ([c], [])
    else ([], c :: cs)

/-- Numeric value of a one- or two-digit string. -/
def digitsVal : List Char → Nat
  | [] => 0
  | [d] => digitVal d
  | [d1, d2] => 10 * digitVal d1 + digitVal d2
  | _ :: _ :: _ :: _ => 0

/-- `datetime.strptime(s, '%H:%M').time()`: one or two digits for the
hour (0-23), a literal colon, one or two digits for the minute (0-59),
nothing left over; any other input raises, embedded as `none`. -/
def strptimeHM (l : List Char) : Option TimeOfDay :=
  let hp := takeDigits2 l
  if hp.1 = [] then none
  else
    match hp.2 with
    | c :: rest1 =>
      if isColon c then
        let mp := takeDigits2 rest1
        if mp.1 = [] ∨ mp.2 ≠ [] then none
        else
          let h := digitsVal hp.1
          let m := digitsVal mp.1
          if h ≤ 23 ∧ m ≤ 59 then some ⟨h, m⟩ else none
      else none
    | [] => none

/-- `$` of `re.match` in default mode: end of string, or immediately
before a newline that ends the string. -/
def endDollar : List Char → Bool
  | [] => true
  | [c] => c = '\n'
  | _ :: _ :: _ => false

/-- The suffix `:[0-5]\d$` of the anchored validation pattern. -/
def finishAnchored : List Char → Bool
  | [] => false
  | [_] => false
  | [_, _] => false
  | c :: m1 :: m2 :: rest =>
    isColon c && isZeroToFive m1 && isDigitC m2 && endDollar rest

/-- `re.match(r'^(?:[01]?\d|2[0-3]):[0-5]\d$', s)` (line 22 of the
source): anchored at the start; acceptance is the union of the
backtracking alternatives. -/
def matchAnchoredTime : List Char → Bool
  | [] => false
  | [_] => false
  | c1 :: c2 :: rest2 =>
    ((isZeroOne c1 && isDigitC c2) && finishAnchored rest2) ||
    (isDigitC c1 && finishAnchored (c2 :: rest2)) ||
    ((isTwo c1 && isZeroToThree c2) && finishAnchored rest2)

/-- `Task._parse_time` (lines 20-26): reject unless the anchored pattern
matches, then delegate to `strptime` (which itself raises on leftover
input such as a trailing newline the `$` anchor tolerated). -/
def parse_time (time_str : List Char) : Option TimeOfDay :=
  if matchAnchoredTime time_str then strptimeHM time_str else none

/-- `Task`: immutable (time, description) record; `__eq__`/`__hash__`
compare both fields. -/
structure Task where
  time : TimeOfDay
  description : List Char
deriving DecidableEq, Repr

/-- `Task.__init__` (lines 16-18): parse the time (raising `ValueError`,
embedded as `none`, on bad input) and strip the description. -/
def mkTask (time_str description : List Char) : Option Task :=
  (parse_time time_str).map fun t => ⟨t, stripWS description⟩

/-- `Task.should_notify` (lines 28-31): `now >= self.time`, with the
current wall-clock time passed explicitly. -/
def should_notify (t : Task) (now : TimeOfDay) : Bool :=
  timeLe t.time now

/-- The body of the per-line loop of `parse_tasks_from_text`
(lines 76-103): strip, skip blanks and comments, search for the first
time token, build the description by deleting every pattern match and
normalizing, skip empty descriptions, construct the task (a construction
failure is caught and the line skipped). -/
def parseLine (rawLine : List Char) : List Task :=
  let line := stripWS rawLine
  if line = [] ∨ line.head? = some '#' then []
  else
    match searchTime line with
    | none => []
    | some (_, time_str, _) =>
      let description := stripBoth isSpaceDash (subTimeAll line)
      let description := stripWS (collapseWS description)
      if description = [] then []
      else
        match mkTask time_str description with
        | some task => [task]
        | none => []

/-- `TaskManager.parse_tasks_from_text` (lines 71-105): split the text at
newlines and process each line independently, collecting the parsed
tasks in line order. -/
def parse_tasks_from_text (text : List Char) : List Task :=
  ((splitNl text).map parseLine).flatten

/-- `validate_task_input` (lines 267-283): search for a time token in
the raw input, delete every match and trim spaces and hyphens, reject an
empty remainder, and accept exactly when `Task` construction succeeds. -/
def validate_task_input (task_input : List Char) : Bool :=
  match searchTime task_input with
  | none => false
  | some (_, time_str, _) =>
    let description := stripBoth isSpaceDash (subTimeAll task_input)
    if description = [] then false
    else (mkTask time_str description).isSome

/-- The mutable fields of `TaskManager` the loader touches: the task
list and the file watermark (`last_modified`, a float timestamp embedded
as an integer — only its ordering is used). -/
structure ManagerState where
  tasks : List Task
  last_modified : Int
deriving DecidableEq, Repr

/-- The file system as `load_tasks` observes it: existence, modification
time, and the readable content, where `none` embeds a read that raises
an I/O error (e.g. a permission error) after the existence check. -/
structure FileSystem where
  fileExists : Bool
  mtime : Int
  content : Option (List Char)

/-- `TaskManager.load_tasks` (lines 107-135): fail if the file does not
exist; succeed as a no-op if the modification time is at most the
watermark; otherwise advance the watermark, then read (an exception here
is caught by the handler, which returns `False`); clear the task list on
blank content, else replace it with the parse result. -/
def load_tasks (fs : FileSystem) (s : ManagerState) : Bool × ManagerState :=
  if !fs.fileExists then (false, s)
  else if fs.mtime ≤ s.last_modified then (true, s)
  else
    let s1 : ManagerState := { s with last_modified := fs.mtime }
    match fs.content with
    | none => (false, s1)
    | some content =>
      if stripWS content = [] then (true, { s1 with tasks := [] })
      else (true, { s1 with tasks := parse_tasks_from_text content })

/-- Python `list.remove`: delete the first element equal to the value
(in `check_and_notify` the value is always present). -/
def removeFirst : List Task → Task → List Task
  | [], _ => []
  | x :: xs, y => if x = y then xs else x :: removeFirst xs y

/-- `TaskManager.check_and_notify` (lines 137-149): iterate over a copy
of the task list, fire a notification for each due task and collect it,
then remove the collected tasks from the live list.  The result is the
ordered list of notified tasks (the notification side-effect trace) and
the final task list. -/
def check_and_notify (now : TimeOfDay) (tasks : List Task) :
    List Task × List Task :=
  let tasks_to_remove := tasks.filter fun t => should_notify t now
  (tasks_to_remove, tasks_to_remove.foldl removeFirst tasks)

/-- What one tick of the monitor loop body does: run to completion,
raise `asyncio.CancelledError`, or raise some other exception. -/
inductive TickOutcome where
  | ok
  | raiseCancelled
  | raiseError
deriving DecidableEq, Repr

/-- The exceptions that can travel upward out of the loop. -/
inductive Exc where
  | cancelledError
  | otherError
deriving DecidableEq, Repr

/-- The `while self._monitoring` loop of `monitor_tasks`
(lines 182-200), run against a script of tick outcomes (the script ends
when the observation ends; the loop itself has no exit condition).  A
cancellation is logged and re-raised; any other exception is logged,
counted as a backoff sleep, and the loop continues. -/
def monitorLoop : List TickOutcome → Option Exc × Nat
  | [] => (none, 0)
  | .ok :: rest => monitorLoop rest
  | .raiseError :: rest =>
    let r := monitorLoop rest
    (r.1, r.2 + 1)
  | .raiseCancelled :: _ => (some .cancelledError, 0)

/-- The observable outcome of `monitor_tasks`: the monitoring flag after
exit, the exception that escaped to the caller (if any), and how many
error backoffs happened. -/
structure MonitorResult where
  monitoring : Bool
  raised : Option Exc
  backoffs : Nat
deriving DecidableEq, Repr

/-- `TaskManager.monitor_tasks` with `monitoring_context`
(lines 165-200): the context sets the monitoring flag, runs the loop
while the flag holds, re-raises whatever escapes (`CancelledError` is
not an `Exception`, so the `except Exception` clause does not swallow
it), and the `finally` clause resets the flag on every exit path. -/
def monitor_tasks (script : List TickOutcome) : MonitorResult :=
  let monitoring := true
  let body := if monitoring then monitorLoop script else (none, 0)
  { monitoring := false, raised := body.1, backoffs := body.2 }

/-- Time-format acceptance set as the specification words it: one or two
digits forming 00-23, a colon, exactly two digits forming 00-59
(modelled from the spec, section 4.1, to compare with `parse_time`). -/
def specTimeString : List Char → Bool
  | [h1, c, m1, m2] =>
    isDigitC h1 && isColon c && isDigitC m1 && isDigitC m2 &&
      decide (10 * digitVal m1 + digitVal m2 ≤ 59)
  | [h1, h2, c, m1, m2] =>
    isDigitC h1 && isDigitC h2 && decide (10 * digitVal h1 + digitVal h2 ≤ 23) &&
      isColon c && isDigitC m1 && isDigitC m2 &&
      decide (10 * digitVal m1 + digitVal m2 ≤ 59)
  | _ => false

/-- Normal form of the strings `Task._parse_time` accepts: the anchored
pattern's character classes with no trailing newline (the `$` anchor
tolerates one, but `strptime` then rejects the leftover). -/
def coreTime : List Char → Bool
  | [a, b, c, d] => isDigitC a && isColon b && isZeroToFive c && isDigitC d
  | [a, b, c, d, e] =>
    (isZeroOne a && isDigitC b || isTwo a && isZeroToThree b) &&
      isColon c && isZeroToFive d && isDigitC e
  | _ => false

/-!  Helper lemmas.  -/

theorem finishMM_eq_some {l m r : List Char} (h : finishMM l = some (m, r)) :
    ∃ c m1 m2, l = c :: m1 :: m2 :: r ∧ m = [c, m1, m2] ∧
      isColon c ∧ isZeroToFive m1 ∧ isDigitC m2 ∧ tailBoundary r := by
  match l with
  | [] => simp [finishMM] at h
  | [c] => simp [finishMM] at h
  | [c, m1] => simp [finishMM] at h
  | c :: m1 :: m2 :: rest =>
    simp only [finishMM] at h
    split at h
    · rename_i hcond
      simp only [Option.some.injEq, Prod.mk.injEq] at h
      exact ⟨c, m1, m2, by simp_all⟩
    · exact absurd h (by simp)

/-- Structure of a successful match attempt: the matched substring is a
time token of one of the two shapes, and the input decomposes as match
followed by remainder. -/
theorem tryMatchAt_eq_some {pw : Bool} {l m r : List Char}
    (h : tryMatchAt pw l = some (m, r)) :
    pw = false ∧ l = m ++ r ∧ tailBoundary r ∧
    ((∃ a b c m1 m2, m = [a, b, c, m1, m2] ∧
        ((isZeroOne a ∧ isDigitC b) ∨ (isTwo a ∧ isZeroToThree b)) ∧
        isColon c ∧ isZeroToFive m1 ∧ isDigitC m2) ∨
     (∃ a c m1 m2, m = [a, c, m1, m2] ∧ isDigitC a ∧
        isColon c ∧ isZeroToFive m1 ∧ isDigitC m2)) := by
  match pw, l with
  | true, l => simp [tryMatchAt] at h
  | false, [] => simp [tryMatchAt] at h
  | false, [c1] => simp [tryMatchAt] at h
  | false, c1 :: c2 :: rest2 =>
      have hpw : ¬ (false = true) := by simp
      rw [tryMatchAt] at h
      rcases ho : (if isZeroOne c1 ∧ isDigitC c2 then
          (finishMM rest2).map fun p => (c1 :: c2 :: p.1, p.2) else none) with _ | v1
      · rcases ho2 : (if isDigitC c1 then
            (finishMM (c2 :: rest2)).map fun p => (c1 :: p.1, p.2) else none) with _ | v2
        · -- third alternative `2[0-3]` was the one that matched
          rw [ho, ho2] at h
          simp only [Option.none_orElse] at h
          split at h
          · rename_i hcond
            rcases hf : finishMM rest2 with _ | ⟨fm, fr⟩
            · rw [hf] at h; simp at h
            · rw [hf] at h
              simp at h
              obtain ⟨hm, hr⟩ := h
              obtain ⟨c, m1, m2, hl, hfm, hc, h5, hd, htb⟩ := finishMM_eq_some hf
              subst hr
              refine ⟨by simpa using hpw, ?_, htb, ?_⟩
              · simp [← hm, hfm, hl]
              · exact Or.inl ⟨c1, c2, c, m1, m2, by simp [← hm, hfm], Or.inr hcond, hc, h5, hd⟩
          · exact absurd h (by simp)
        · -- second alternative (one-digit hour) was the one that matched
          rw [ho, ho2] at h
          simp only [Option.none_orElse, Option.some_orElse, Option.some.injEq] at h
          subst h
          split at ho2
          · rename_i hcond
            rcases hf : finishMM (c2 :: rest2) with _ | ⟨fm, fr⟩
            · rw [hf] at ho2; simp at ho2
            · rw [hf] at ho2
              simp at ho2
              obtain ⟨hm, hr⟩ := ho2
              obtain ⟨c, m1, m2, hl, hfm, hc, h5, hd, htb⟩ := finishMM_eq_some hf
              subst hr
              refine ⟨by simpa using hpw, ?_, htb, ?_⟩
              · rw [← hm, hfm]; simpa using hl
              · exact Or.inr ⟨c1, c, m1, m2, by simp [← hm, hfm], hcond, hc, h5, hd⟩
          · exact absurd ho2 (by simp)
      · -- first alternative `[01]\d` was the one that matched
        rw [ho] at h
        simp only [Option.some_orElse, Option.some.injEq] at h
        subst h
        split at ho
        · rename_i hcond
          rcases hf : finishMM rest2 with _ | ⟨fm, fr⟩
          · rw [hf] at ho; simp at ho
          · rw [hf] at ho
            simp at ho
            obtain ⟨hm, hr⟩ := ho
            obtain ⟨c, m1, m2, hl, hfm, hc, h5, hd, htb⟩ := finishMM_eq_some hf
            subst hr
            refine ⟨by simpa using hpw, ?_, htb, ?_⟩
            · simp [← hm, hfm, hl]
            · exact Or.inl ⟨c1, c2, c, m1, m2, by simp [← hm, hfm], Or.inl hcond, hc, h5, hd⟩
        · exact absurd ho (by simp)

theorem tryMatchAt_rest_length {pw : Bool} {l m r : List Char}
    (h : tryMatchAt pw l = some (m, r)) : r.length < l.length := by
  obtain ⟨-, hl, -, hshape⟩ := tryMatchAt_eq_some h
  rcases hshape with ⟨a, b, c, m1, m2, hm, -⟩ | ⟨a, c, m1, m2, hm, -⟩ <;>
    subst hm <;> simp [hl] <;> omega

theorem tryMatchAt_nil (pw : Bool) : tryMatchAt pw [] = none := by
  cases pw <;> rfl

theorem subAllFuel_congr {fuel fuel' : Nat} {pw : Bool} {l : List Char}
    (h : l.length ≤ fuel) (h' : l.length ≤ fuel') :
    subAllFuel fuel pw l = subAllFuel fuel' pw l := by
  induction fuel generalizing fuel' pw l with
  | zero =>
    have : l = [] := List.length_eq_zero.mp (Nat.le_zero.mp h)
    subst this
    cases fuel' with
    | zero => rfl
    | succ f => simp [subAllFuel, tryMatchAt_nil]
  | succ f ih =>
    cases fuel' with
    | zero =>
      have : l = [] := List.length_eq_zero.mp (Nat.le_zero.mp h')
      subst this
      simp [subAllFuel, tryMatchAt_nil]
    | succ f' =>
      cases l with
      | nil => simp [subAllFuel, tryMatchAt_nil]
      | cons c cs =>
        simp only [List.length_cons] at h h'
        rcases htm : tryMatchAt pw (c :: cs) with _ | ⟨m, rest⟩
        · simp only [subAllFuel, htm]
          exact congrArg _ (ih (by omega) (by omega))
        · have hlt := tryMatchAt_rest_length htm
          simp only [List.length_cons] at hlt
          simp only [subAllFuel, htm]
          exact ih (by omega) (by omega)

theorem subAllFrom_nil (pw : Bool) : subAllFrom pw [] = [] := rfl

theorem subAllFrom_match {pw : Bool} {l m rest : List Char}
    (h : tryMatchAt pw l = some (m, rest)) :
    subAllFrom pw l = subAllFrom true rest := by
  have hlt := tryMatchAt_rest_length h
  cases l with
  | nil => rw [tryMatchAt_nil] at h; exact absurd h (by simp)
  | cons c cs =>
    rw [subAllFrom, subAllFrom, List.length_cons]
    simp only [subAllFuel, h]
    simp only [List.length_cons] at hlt
    exact subAllFuel_congr (by omega) le_rfl

theorem subAllFrom_nomatch {pw : Bool} {c : Char} {cs : List Char}
    (h : tryMatchAt pw (c :: cs) = none) :
    subAllFrom pw (c :: cs) = c :: subAllFrom (isWordChar c) cs := by
  rw [subAllFrom, subAllFrom, List.length_cons]
  simp only [subAllFuel, h]

theorem isDigitC_iff {c : Char} : isDigitC c = true ↔ 48 ≤ c.toNat ∧ c.toNat ≤ 57 := by
  simp [isDigitC]

theorem isColon_iff {c : Char} : isColon c = true ↔ c.toNat = 58 := by
  simp [isColon]

theorem isZeroOne_iff {c : Char} : isZeroOne c = true ↔ c.toNat = 48 ∨ c.toNat = 49 := by
  simp [isZeroOne]

theorem isTwo_iff {c : Char} : isTwo c = true ↔ c.toNat = 50 := by
  simp [isTwo]

theorem isZeroToThree_iff {c : Char} : isZeroToThree c = true ↔ 48 ≤ c.toNat ∧ c.toNat ≤ 51 := by
  simp [isZeroToThree]

theorem isZeroToFive_iff {c : Char} : isZeroToFive c = true ↔ 48 ≤ c.toNat ∧ c.toNat ≤ 53 := by
  simp [isZeroToFive]

theorem isSpaceC_iff {c : Char} : isSpaceC c = true ↔ c.toNat = 32 ∨ (9 ≤ c.toNat ∧ c.toNat ≤ 13) := by
  simp [isSpaceC]

theorem isSpaceC_not_word {c : Char} (h : isSpaceC c = true) : isWordChar c = false := by
  rw [isSpaceC_iff] at h
  simp only [isWordChar, isDigitC, Bool.or_eq_false_iff, decide_eq_false_iff_not]
  omega

theorem isSpaceC_not_digit {c : Char} (h : isSpaceC c = true) : isDigitC c = false := by
  rw [isSpaceC_iff] at h
  simp only [isDigitC, decide_eq_false_iff_not]
  omega

/-- Folding `list.remove` over elements none of which equals `x` leaves a
leading `x` in place. -/
theorem foldl_removeFirst_cons (m : List Task) (x : Task) (l : List Task)
    (h : ∀ y ∈ m, y ≠ x) :
    m.foldl removeFirst (x :: l) = x :: m.foldl removeFirst l := by
  induction m generalizing l with
  | nil => rfl
  | cons y ms ih =>
    have hyx : y ≠ x := h y (by simp)
    simp only [List.foldl_cons, removeFirst]
    rw [if_neg (fun he => hyx he.symm)]
    exact ih _ fun z hz => h z (by simp [hz])

/-- Removing, one by one, every element satisfying `p` from a list leaves
exactly the elements not satisfying `p`, in order. -/
theorem foldl_removeFirst_filter (p : Task → Bool) (l : List Task) :
    (l.filter p).foldl removeFirst l = l.filter fun t => !p t := by
  induction l with
  | nil => rfl
  | cons x xs ih =>
    by_cases hx : p x = true
    · rw [List.filter_cons_of_pos hx, List.foldl_cons]
      have : removeFirst (x :: xs) x = xs := by simp [removeFirst]
      rw [this, ih, List.filter_cons_of_neg (by simp [hx])]
    · rw [List.filter_cons_of_neg hx,
        foldl_removeFirst_cons _ _ _ (fun y hy hyx => by
          have := List.of_mem_filter hy
          rw [hyx] at this
          exact hx this),
        ih, List.filter_cons_of_pos (by simp [hx])]

/-- C7: `should_notify(task, now)` holds exactly when `now` is at or past
the task's time-of-day in the lexicographic (hour, minute) order; at the
boundary `now = task.time` it holds, and once due a task stays due at
every later time (it remains due until dispatched). -/
theorem spec_C7 (t : Task) (now : TimeOfDay) :
    (should_notify t now = true ↔
      (t.time.hour < now.hour ∨ (t.time.hour = now.hour ∧ t.time.minute ≤ now.minute))) ∧
    should_notify t t.time = true ∧
    (∀ later : TimeOfDay, should_notify t now = true →
      (now.hour < later.hour ∨ (now.hour = later.hour ∧ now.minute ≤ later.minute)) →
      should_notify t later = true) := by
  refine ⟨by simp [should_notify, timeLe], by simp [should_notify, timeLe], ?_⟩
  intro later hdue hle
  simp only [should_notify, timeLe, decide_eq_true_eq] at hdue ⊢
  omega

theorem spec_C7_witness :
    should_notify ⟨⟨9, 30⟩, []⟩ ⟨9, 30⟩ = true ∧ should_notify ⟨⟨9, 30⟩, []⟩ ⟨11, 0⟩ = true := by
  refine ⟨(spec_C7 ⟨⟨9, 30⟩, []⟩ ⟨9, 30⟩).2.1, ?_⟩
  exact (spec_C7 ⟨⟨9, 30⟩, []⟩ ⟨9, 30⟩).2.2 ⟨11, 0⟩ (spec_C7 ⟨⟨9, 30⟩, []⟩ ⟨9, 30⟩).2.1
    (by simp)

/-- C3: one dispatch pass notifies exactly the due tasks, in order;
after the scan exactly those are removed, and the remaining tasks are
the non-due ones in their original relative order; with 3 tasks of which
exactly 1 is due, 2 remain and exactly 1 notification fires. -/
theorem spec_C3 (now : TimeOfDay) (tasks : List Task) :
    (check_and_notify now tasks).1 = tasks.filter (fun t => should_notify t now) ∧
    (check_and_notify now tasks).2 = tasks.filter (fun t => !should_notify t now) ∧
    ((check_and_notify now tasks).2).Sublist tasks ∧
    (tasks.length = 3 →
      (tasks.filter (fun t => should_notify t now)).length = 1 →
      (check_and_notify now tasks).2.length = 2 ∧
        (check_and_notify now tasks).1.length = 1) := by
  have h2 : (check_and_notify now tasks).2 = tasks.filter (fun t => !should_notify t now) :=
    foldl_removeFirst_filter _ tasks
  refine ⟨rfl, h2, h2 ▸ List.filter_sublist _, ?_⟩
  intro hlen hone
  have hsplit : (tasks.filter (fun t => should_notify t now)).length +
      (tasks.filter (fun t => !should_notify t now)).length = tasks.length :=
    (List.length_eq_length_filter_add _).symm
  constructor
  · rw [h2]; omega
  · simpa [check_and_notify] using hone

theorem spec_C3_witness :
    (check_and_notify ⟨10, 0⟩
        [⟨⟨9, 0⟩, []⟩, ⟨⟨12, 0⟩, ['a']⟩, ⟨⟨15, 0⟩, ['b']⟩]).2.length = 2 ∧
    (check_and_notify ⟨10, 0⟩
        [⟨⟨9, 0⟩, []⟩, ⟨⟨12, 0⟩, ['a']⟩, ⟨⟨15, 0⟩, ['b']⟩]).1.length = 1 :=
  (spec_C3 ⟨10, 0⟩ [⟨⟨9, 0⟩, []⟩, ⟨⟨12, 0⟩, ['a']⟩, ⟨⟨15, 0⟩, ['b']⟩]).2.2.2
    (by decide) (by decide)

/-- C6: when the file exists and its modification time is at most the
stored watermark, `load_tasks` is a successful no-op: the whole state is
unchanged, the result does not depend on the file content (nothing is
read or reparsed), and a second load against an unchanged file never
changes the task set. -/
theorem spec_C6 (fs : FileSystem) (s : ManagerState)
    (hex : fs.fileExists = true) (hmt : fs.mtime ≤ s.last_modified) :
    load_tasks fs s = (true, s) ∧
    (∀ c₁ c₂ : Option (List Char),
      load_tasks { fs with content := c₁ } s = load_tasks { fs with content := c₂ } s) ∧
    (∀ (fs₂ : FileSystem) (s₂ : ManagerState),
      (load_tasks fs₂ (load_tasks fs₂ s₂).2).2.tasks = (load_tasks fs₂ s₂).2.tasks) := by
  refine ⟨by simp [load_tasks, hex, hmt], fun c₁ c₂ => by simp [load_tasks, hex, hmt], ?_⟩
  intro fs₂ s₂
  by_cases hex₂ : fs₂.fileExists = true
  · by_cases hmt₂ : fs₂.mtime ≤ s₂.last_modified
    · simp [load_tasks, hex₂, hmt₂]
    · rcases hc : fs₂.content with _ | content
      · simp [load_tasks, hex₂, hmt₂, hc]
      · by_cases hb : stripWS content = [] <;>
          simp [load_tasks, hex₂, hmt₂, hc, hb]
  · simp [load_tasks, hex₂]

theorem spec_C6_witness :
    load_tasks ⟨true, 5, some ['x']⟩ ⟨[⟨⟨9, 0⟩, []⟩], 7⟩ = (true, ⟨[⟨⟨9, 0⟩, []⟩], 7⟩) :=
  (spec_C6 ⟨true, 5, some ['x']⟩ ⟨[⟨⟨9, 0⟩, []⟩], 7⟩ rfl (by decide)).1

/-- C1 (amended): when the file exists, its modification time exceeds the
watermark, and the read then fails with an I/O error, `load_tasks`
returns `False` and leaves the task set unchanged — but the watermark is
not left unchanged: it has already been advanced to the file's
modification time before the failing read. -/
theorem spec_C1 (fs : FileSystem) (s : ManagerState)
    (hex : fs.fileExists = true) (hmt : s.last_modified < fs.mtime)
    (hread : fs.content = none) :
    load_tasks fs s = (false, { s with last_modified := fs.mtime }) ∧
    (load_tasks fs s).2.tasks = s.tasks ∧
    (load_tasks fs s).2.last_modified = fs.mtime := by
  have h : load_tasks fs s = (false, { s with last_modified := fs.mtime }) := by
    simp [load_tasks, hex, hread, not_le.mpr hmt]
  exact ⟨h, by rw [h], by rw [h]⟩

theorem spec_C1_witness :
    (load_tasks ⟨true, 1, none⟩ ⟨[], 0⟩).1 = false ∧
    (load_tasks ⟨true, 1, none⟩ ⟨[], 0⟩).2.tasks = [] :=
  ⟨by rw [(spec_C1 ⟨true, 1, none⟩ ⟨[], 0⟩ rfl (by decide) rfl).1],
   (spec_C1 ⟨true, 1, none⟩ ⟨[], 0⟩ rfl (by decide) rfl).2.1⟩

/-- C1 counterexample: a permission failure on a file newer than the
watermark returns the failure signal with the task set intact, yet the
watermark has changed — refuting the claim that it is left unchanged. -/
theorem spec_C1_counterexample :
    (load_tasks ⟨true, 1, none⟩ ⟨[], 0⟩).1 = false ∧
    (load_tasks ⟨true, 1, none⟩ ⟨[], 0⟩).2.tasks = [] ∧
    ¬ (load_tasks ⟨true, 1, none⟩ ⟨[], 0⟩).2.last_modified = (0 : Int) := by
  decide

/-- `while self._monitoring` body semantics: a cancellation stops the
loop and is the exception that escapes; any other per-tick error is
absorbed (counted as one backoff) and scanning continues. -/
theorem monitorLoop_spec (script : List TickOutcome) :
    ((monitorLoop script).1 = some Exc.cancelledError ↔ TickOutcome.raiseCancelled ∈ script) ∧
    (monitorLoop script).1 ≠ some Exc.otherError := by
  induction script with
  | nil => simp [monitorLoop]
  | cons t rest ih =>
    cases t with
    | ok => simpa [monitorLoop] using ih
    | raiseError => simpa [monitorLoop] using ih
    | raiseCancelled => simp [monitorLoop]

/-- C8: on every exit path of `monitor_tasks` the monitoring flag ends
up `false`; a cancellation observed in the loop always escapes to the
caller (exactly when the script contains one), and no other exception
ever escapes a tick — such errors are contained and the loop continues. -/
theorem spec_C8 (script : List TickOutcome) :
    (monitor_tasks script).monitoring = false ∧
    ((monitor_tasks script).raised = some Exc.cancelledError ↔
      TickOutcome.raiseCancelled ∈ script) ∧
    (monitor_tasks script).raised ≠ some Exc.otherError := by
  have h := monitorLoop_spec script
  exact ⟨rfl, by simpa [monitor_tasks] using h.1, by simpa [monitor_tasks] using h.2⟩

theorem splitNl_no_nl {l : List Char} (h : '\n' ∉ l) : splitNl l = [l] := by
  induction l with
  | nil => rfl
  | cons c cs ih =>
    have hc : c ≠ '\n' := fun he => h (he ▸ List.mem_cons_self c cs)
    have hcs : '\n' ∉ cs := fun hm => h (List.mem_cons_of_mem c hm)
    rw [splitNl, ih hcs]
    simp [hc]

theorem splitNl_ne_nil (l : List Char) : splitNl l ≠ [] := by
  cases l with
  | nil => simp [splitNl]
  | cons c cs =>
    rw [splitNl]
    rcases splitNl cs with _ | ⟨s, ss⟩
    · simp
    · simp only
      split <;> simp

theorem splitNl_append_nl {l : List Char} (r : List Char) (h : '\n' ∉ l) :
    splitNl (l ++ '\n' :: r) = l :: splitNl r := by
  induction l with
  | nil =>
    rw [List.nil_append, splitNl]
    rcases hs : splitNl r with _ | ⟨s, ss⟩
    · exact absurd hs (splitNl_ne_nil r)
    · simp
  | cons c cs ih =>
    have hc : c ≠ '\n' := fun he => h (he ▸ List.mem_cons_self c cs)
    have hcs : '\n' ∉ cs := fun hm => h (List.mem_cons_of_mem c hm)
    rw [List.cons_append, splitNl, ih hcs]
    simp [hc]

theorem splitNl_intercalate {lines : List (List Char)} (hne : lines ≠ [])
    (h : ∀ l ∈ lines, '\n' ∉ l) :
    splitNl (List.intercalate ['\n'] lines) = lines := by
  induction lines with
  | nil => exact absurd rfl hne
  | cons l ls ih =>
    cases ls with
    | nil =>
      rw [List.intercalate]
      simpa using splitNl_no_nl (h l (by simp))
    | cons l2 ls2 =>
      have hstep : List.intercalate ['\n'] (l :: l2 :: ls2) =
          l ++ '\n' :: List.intercalate ['\n'] (l2 :: ls2) := by
        simp [List.intercalate, List.intersperse]
      rw [hstep, splitNl_append_nl _ (h l (by simp)),
        ih (by simp) fun x hx => h x (List.mem_cons_of_mem l hx)]

/-- C4: parsing is total and per-line: the parse of a multi-line text is
the concatenation of the independent per-line results, so a malformed
line only contributes an empty segment and never aborts the batch; the
malformed batch of the specification parses to the empty sequence with
no exception reaching the caller. -/
theorem spec_C4 :
    (∀ lines : List (List Char), lines ≠ [] → (∀ l ∈ lines, '\n' ∉ l) →
      parse_tasks_from_text (List.intercalate ['\n'] lines) =
        (lines.map parseLine).flatten) ∧
    parse_tasks_from_text ("invalid time - Задача\n25:70 - X\n- Y\n").data = [] := by
  constructor
  · intro lines hne h
    rw [parse_tasks_from_text, splitNl_intercalate hne h]
  · decide

theorem spec_C4_witness :
    parse_tasks_from_text (List.intercalate ['\n'] [['a'], ['b']]) =
      ([(['a'] : List Char), ['b']].map parseLine).flatten :=
  spec_C4.1 [['a'], ['b']] (by simp) (by decide)

theorem matchAnchored_len4 (a b c d : Char) :
    matchAnchoredTime [a, b, c, d] =
      (isDigitC a && isColon b && isZeroToFive c && isDigitC d) := by
  simp [matchAnchoredTime, finishAnchored, endDollar, Bool.and_assoc]

theorem strptime_len4 {a b c d : Char} (ha : isDigitC a = true)
    (hb : isColon b = true) (hc : isZeroToFive c = true) (hd : isDigitC d = true) :
    strptimeHM [a, b, c, d] = some ⟨digitVal a, 10 * digitVal c + digitVal d⟩ := by
  have hbd : isDigitC b = false := by
    rw [isColon_iff] at hb
    simp only [isDigitC, decide_eq_false_iff_not]
    omega
  have hcd : isDigitC c = true := by
    rw [isZeroToFive_iff] at hc
    rw [isDigitC_iff]
    omega
  have hval : digitVal a ≤ 23 ∧ 10 * digitVal c + digitVal d ≤ 59 := by
    rw [isDigitC_iff] at ha hd
    rw [isZeroToFive_iff] at hc
    unfold digitVal
    omega
  simp [strptimeHM, takeDigits2, ha, hbd, hb, hcd, hd, digitsVal, hval]

theorem matchAnchored_len5 (a b c d e : Char) :
    matchAnchoredTime [a, b, c, d, e] =
      (((isZeroOne a && isDigitC b) || (isTwo a && isZeroToThree b)) &&
        (isColon c && isZeroToFive d && isDigitC e) ||
       (isDigitC a && (isColon b && isZeroToFive c && isDigitC d && decide (e = '\n')))) := by
  simp only [matchAnchoredTime, finishAnchored, endDollar, Bool.and_true, Bool.and_assoc]
  cases isZeroOne a <;> cases isDigitC a <;> cases isDigitC b <;> cases isTwo a <;>
    cases isZeroToThree b <;> simp [Bool.or_comm] <;> tauto

theorem strptime_len5_hour2 {a b c d e : Char}
    (hab : (isZeroOne a = true ∧ isDigitC b = true) ∨
      (isTwo a = true ∧ isZeroToThree b = true))
    (hc : isColon c = true) (hd : isZeroToFive d = true) (he : isDigitC e = true) :
    strptimeHM [a, b, c, d, e] =
      some ⟨10 * digitVal a + digitVal b, 10 * digitVal d + digitVal e⟩ := by
  have hA : isDigitC a = true := by
    rw [isDigitC_iff]
    rcases hab with ⟨h1, -⟩ | ⟨h1, -⟩
    · rw [isZeroOne_iff] at h1; omega
    · rw [isTwo_iff] at h1; omega
  have hB : isDigitC b = true := by
    rw [isDigitC_iff]
    rcases hab with ⟨-, h1⟩ | ⟨-, h1⟩
    · rw [isDigitC_iff] at h1; omega
    · rw [isZeroToThree_iff] at h1; omega
  have hcd : isDigitC c = false := by
    rw [isColon_iff] at hc
    simp only [isDigitC, decide_eq_false_iff_not]
    omega
  have hD : isDigitC d = true := by
    rw [isZeroToFive_iff] at hd
    rw [isDigitC_iff]
    omega
  have hval : 10 * digitVal a + digitVal b ≤ 23 ∧ 10 * digitVal d + digitVal e ≤ 59 := by
    rw [isDigitC_iff] at he
    rw [isZeroToFive_iff] at hd
    unfold digitVal
    constructor
    · rcases hab with ⟨h1, h2⟩ | ⟨h1, h2⟩
      · rw [isZeroOne_iff] at h1; rw [isDigitC_iff] at h2; omega
      · rw [isTwo_iff] at h1; rw [isZeroToThree_iff] at h2; omega
    · omega
  simp [strptimeHM, takeDigits2, hA, hB, hc, hcd, hD, he, digitsVal, hval]

theorem strptime_len5_colon2 {a b : Char} (c d e : Char)
    (ha : isDigitC a = true) (hb : isColon b = true) :
    strptimeHM [a, b, c, d, e] = none := by
  have hbd : isDigitC b = false := by
    rw [isColon_iff] at hb
    simp only [isDigitC, decide_eq_false_iff_not]
    omega
  by_cases hc : isDigitC c = true
  · by_cases hd : isDigitC d = true
    · simp [strptimeHM, takeDigits2, ha, hbd, hb, hc, hd]
    · simp only [Bool.not_eq_true] at hd
      simp [strptimeHM, takeDigits2, ha, hbd, hb, hc, hd]
  · simp only [Bool.not_eq_true] at hc
    simp [strptimeHM, takeDigits2, ha, hbd, hb, hc]

theorem matchAnchored_len6 (a b c d e f : Char) :
    matchAnchoredTime [a, b, c, d, e, f] =
      (((isZeroOne a && isDigitC b) || (isTwo a && isZeroToThree b)) &&
        (isColon c && isZeroToFive d && isDigitC e && decide (f = '\n'))) := by
  simp only [matchAnchoredTime, finishAnchored, endDollar, Bool.and_true, Bool.and_false,
    Bool.and_assoc]
  cases isZeroOne a <;> cases isDigitC a <;> cases isDigitC b <;> cases isTwo a <;>
    cases isZeroToThree b <;> simp [Bool.or_comm] <;> tauto

theorem strptime_len6 {a b c d e : Char} (f : Char)
    (hab : (isZeroOne a = true ∧ isDigitC b = true) ∨
      (isTwo a = true ∧ isZeroToThree b = true))
    (hc : isColon c = true) (hd : isZeroToFive d = true) (he : isDigitC e = true) :
    strptimeHM [a, b, c, d, e, f] = none := by
  have hA : isDigitC a = true := by
    rw [isDigitC_iff]
    rcases hab with ⟨h1, -⟩ | ⟨h1, -⟩
    · rw [isZeroOne_iff] at h1; omega
    · rw [isTwo_iff] at h1; omega
  have hB : isDigitC b = true := by
    rw [isDigitC_iff]
    rcases hab with ⟨-, h1⟩ | ⟨-, h1⟩
    · rw [isDigitC_iff] at h1; omega
    · rw [isZeroToThree_iff] at h1; omega
  have hcd : isDigitC c = false := by
    rw [isColon_iff] at hc
    simp only [isDigitC, decide_eq_false_iff_not]
    omega
  have hD : isDigitC d = true := by
    rw [isZeroToFive_iff] at hd
    rw [isDigitC_iff]
    omega
  simp [strptimeHM, takeDigits2, hA, hB, hc, hcd, hD, he]

/-- `Task._parse_time` succeeds exactly on the character-class normal
form (anchored pattern, no trailing newline). -/
theorem parse_time_isSome_eq_coreTime (s : List Char) :
    (parse_time s).isSome = coreTime s := by
  match s with
  | [] => rfl
  | [a] => rfl
  | [a, b] => simp [parse_time, matchAnchoredTime, finishAnchored, coreTime]
  | [a, b, c] => simp [parse_time, matchAnchoredTime, finishAnchored, coreTime]
  | [a, b, c, d] =>
    rw [parse_time, matchAnchored_len4]
    by_cases h : (isDigitC a && isColon b && isZeroToFive c && isDigitC d) = true
    · rw [if_pos h]
      simp only [Bool.and_eq_true] at h
      obtain ⟨⟨⟨ha, hb⟩, hc⟩, hd⟩ := h
      rw [strptime_len4 ha hb hc hd]
      simp [coreTime, ha, hb, hc, hd]
    · rw [if_neg h]
      simp only [Bool.not_eq_true] at h
      simp [coreTime, h]
  | [a, b, c, d, e] =>
    have hcore : coreTime [a, b, c, d, e] =
        (((isZeroOne a && isDigitC b) || (isTwo a && isZeroToThree b)) &&
          (isColon c && isZeroToFive d && isDigitC e)) := by
      simp [coreTime, Bool.and_assoc]
    rw [parse_time, matchAnchored_len5, hcore]
    by_cases h1 : (((isZeroOne a && isDigitC b) || (isTwo a && isZeroToThree b)) &&
        (isColon c && isZeroToFive d && isDigitC e)) = true
    · rw [if_pos (by simp [h1])]
      rw [h1]
      have h1p := h1
      simp only [Bool.and_eq_true, Bool.or_eq_true] at h1p
      obtain ⟨hor, ⟨hc, hd⟩, he⟩ := h1p
      rw [strptime_len5_hour2 hor hc hd he]
      rfl
    · by_cases h2 : (isDigitC a &&
          (isColon b && isZeroToFive c && isDigitC d && decide (e = '\n'))) = true
      · rw [if_pos (by simp [h2])]
        simp only [Bool.and_eq_true] at h2
        obtain ⟨ha2, ⟨⟨hb2, hc2⟩, hd2⟩, he2⟩ := h2
        rw [strptime_len5_colon2 c d e ha2 hb2]
        simp only [Bool.not_eq_true] at h1
        rw [h1]
        rfl
      · rw [if_neg (by simp [h1, h2])]
        simp only [Bool.not_eq_true] at h1
        rw [h1]
        rfl
  | [a, b, c, d, e, f] =>
    rw [parse_time, matchAnchored_len6]
    by_cases h : (((isZeroOne a && isDigitC b) || (isTwo a && isZeroToThree b)) &&
        (isColon c && isZeroToFive d && isDigitC e && decide (f = '\n'))) = true
    · rw [if_pos h]
      simp only [Bool.and_eq_true, Bool.or_eq_true] at h
      obtain ⟨hor6, ⟨⟨hc6, hd6⟩, he6⟩, hf6⟩ := h
      rw [strptime_len6 f hor6 hc6 hd6 he6]
      simp [coreTime]
    · rw [if_neg h]
      simp [coreTime]
  | a :: b :: c :: d :: e :: f :: g :: rest =>
    simp [parse_time, matchAnchoredTime, finishAnchored, endDollar, coreTime]

theorem coreTime_eq_specTimeString (s : List Char) : coreTime s = specTimeString s := by
  match s with
  | [] => rfl
  | [a] => rfl
  | [a, b] => rfl
  | [a, b, c] => rfl
  | [a, b, c, d] =>
    rw [Bool.eq_iff_iff]
    simp only [coreTime, specTimeString, Bool.and_eq_true, Bool.or_eq_true,
      isDigitC, isColon, isZeroToFive, isZeroOne, isTwo, isZeroToThree, digitVal,
      decide_eq_true_eq]
    omega
  | [a, b, c, d, e] =>
    rw [Bool.eq_iff_iff]
    simp only [coreTime, specTimeString, Bool.and_eq_true, Bool.or_eq_true,
      isDigitC, isColon, isZeroToFive, isZeroOne, isTwo, isZeroToThree, digitVal,
      decide_eq_true_eq]
    omega
  | a :: b :: c :: d :: e :: f :: rest => simp [coreTime, specTimeString]

/-- C5: `Task._parse_time` succeeds exactly on the strings of the
specification's format — one or two digits forming an hour 00-23, a
colon, exactly two digits forming a minute 00-59 — and fails (raises
`ValueError`, embedded as `none`) on every other string. -/
theorem spec_C5 (s : List Char) : (parse_time s).isSome = specTimeString s := by
  rw [parse_time_isSome_eq_coreTime, coreTime_eq_specTimeString]

theorem searchFrom_eq_some {pw : Bool} {l pre m post : List Char}
    (h : searchFrom pw l = some (pre, m, post)) :
    l = pre ++ m ++ post ∧ ∃ pw2, tryMatchAt pw2 (m ++ post) = some (m, post) := by
  induction l generalizing pw pre with
  | nil =>
    rw [searchFrom, tryMatchAt_nil] at h
    simp at h
  | cons c cs ih =>
    rw [searchFrom] at h
    rcases htm : tryMatchAt pw (c :: cs) with _ | ⟨mm, rest⟩
    · rw [htm] at h
      rcases hs : searchFrom (isWordChar c) cs with _ | ⟨⟨pre2, m2, post2⟩⟩
      · rw [hs] at h; simp at h
      · rw [hs] at h
        simp only [Option.map_some', Option.some.injEq, Prod.mk.injEq] at h
        obtain ⟨hpre, hm, hpost⟩ := h
        subst hm hpost
        obtain ⟨hl, pw2, htm2⟩ := ih hs
        refine ⟨?_, pw2, htm2⟩
        rw [← hpre]
        simp [hl]
    · rw [htm] at h
      simp only [Option.some.injEq, Prod.mk.injEq] at h
      obtain ⟨hpre, hm, hpost⟩ := h
      obtain ⟨-, hl, -, -⟩ := tryMatchAt_eq_some htm
      subst hm hpost
      exact ⟨by simp [← hpre, hl], pw, by rw [← hl]; exact htm⟩

/-- Every substring the search pattern matches is in the acceptance
normal form of the anchored validation pattern. -/
theorem searchTime_token_valid {l pre m post : List Char}
    (h : searchTime l = some (pre, m, post)) : coreTime m = true := by
  obtain ⟨-, pw2, htm⟩ := searchFrom_eq_some h
  obtain ⟨-, -, -, hshape⟩ := tryMatchAt_eq_some htm
  rcases hshape with ⟨a, b, c, m1, m2, hm, hab, hc, h5, hd⟩ |
    ⟨a, c, m1, m2, hm, ha, hc, h5, hd⟩ <;> subst hm
  · rcases hab with ⟨h1, h2⟩ | ⟨h1, h2⟩ <;> simp [coreTime, h1, h2, hc, h5, hd]
  · simp [coreTime, ha, hc, h5, hd]

theorem parse_time_isSome_anchored {m : List Char}
    (h : (parse_time m).isSome = true) : matchAnchoredTime m = true := by
  by_contra hn
  simp only [Bool.not_eq_true] at hn
  simp [parse_time, hn] at h

/-- C9: the Task-construction failure branch of the line parser is
unreachable: whenever the search pattern finds a time token in a line,
that token also passes the anchored validation of `Task._parse_time`, so
`Task` construction succeeds for any description and the
`except ValueError` branch of `parse_tasks_from_text` never executes. -/
theorem spec_C9 (line pre m post : List Char)
    (h : searchTime line = some (pre, m, post)) :
    matchAnchoredTime m = true ∧ (parse_time m).isSome = true ∧
    (∀ desc : List Char, (mkTask m desc).isSome = true) := by
  have hcore : (parse_time m).isSome = true := by
    rw [parse_time_isSome_eq_coreTime]
    exact searchTime_token_valid h
  refine ⟨parse_time_isSome_anchored hcore, hcore, fun desc => ?_⟩
  simpa [mkTask] using hcore

theorem spec_C9_witness :
    searchTime ("x 12:30 y").data = some (['x', ' '], ("12:30").data, [' ', 'y']) ∧
    (mkTask ("12:30").data ('z' :: []) ).isSome = true :=
  ⟨by decide,
   (spec_C9 ("x 12:30 y").data ['x', ' '] ("12:30").data [' ', 'y'] (by decide)).2.2 ['z']⟩

theorem dropLeading_head_false (p : Char → Bool) (l : List Char) :
    ∀ c, (dropLeading p l).head? = some c → p c = false := by
  induction l with
  | nil => intro c hc; simp [dropLeading] at hc
  | cons a as ih =>
    intro c hc
    rw [dropLeading] at hc
    split at hc
    · exact ih c hc
    · rename_i hpa
      simp only [List.head?_cons, Option.some.injEq] at hc
      subst hc
      exact Bool.not_eq_true _ ▸ hpa

theorem dropLeading_of_head_false (p : Char → Bool) (l : List Char)
    (h : ∀ c, l.head? = some c → p c = false) : dropLeading p l = l := by
  cases l with
  | nil => rfl
  | cons a as =>
    rw [dropLeading, if_neg]
    simp [h a rfl]

theorem dropLeading_idem (p : Char → Bool) (l : List Char) :
    dropLeading p (dropLeading p l) = dropLeading p l :=
  dropLeading_of_head_false _ _ (dropLeading_head_false p l)

theorem dropLeading_decomp (p : Char → Bool) (l : List Char) :
    ∃ w, l = w ++ dropLeading p l ∧ ∀ c ∈ w, p c = true := by
  induction l with
  | nil => exact ⟨[], rfl, by simp⟩
  | cons a as ih =>
    rw [dropLeading]
    split
    · rename_i hpa
      obtain ⟨w, hw, hp⟩ := ih
      refine ⟨a :: w, by simp [← hw], fun c hc => ?_⟩
      rcases List.mem_cons.mp hc with hc | hc
      · exact hc ▸ hpa
      · exact hp c hc
    · exact ⟨[], rfl, by simp⟩

theorem dropTrailing_decomp (p : Char → Bool) (l : List Char) :
    ∃ w, l = dropTrailing p l ++ w ∧ ∀ c ∈ w, p c = true := by
  obtain ⟨w, hw, hp⟩ := dropLeading_decomp p l.reverse
  refine ⟨w.reverse, ?_, fun c hc => hp c (by simpa using hc)⟩
  have h2 := congrArg List.reverse hw
  rw [List.reverse_reverse, List.reverse_append] at h2
  rw [dropTrailing]
  exact h2

theorem stripBoth_decomp (p : Char → Bool) (l : List Char) :
    ∃ lw tw, l = lw ++ stripBoth p l ++ tw ∧
      (∀ c ∈ lw, p c = true) ∧ (∀ c ∈ tw, p c = true) := by
  obtain ⟨lw, hlw, hp1⟩ := dropLeading_decomp p l
  obtain ⟨tw, htw, hp2⟩ := dropTrailing_decomp p (dropLeading p l)
  exact ⟨lw, tw, by rw [stripBoth, List.append_assoc, ← htw, ← hlw], hp1, hp2⟩

theorem mem_stripBoth (p : Char → Bool) {l : List Char} {c : Char}
    (h : c ∈ stripBoth p l) : c ∈ l := by
  obtain ⟨lw, tw, hl, -, -⟩ := stripBoth_decomp p l
  rw [hl]
  simp [h]

theorem dropLeading_eq_nil (p : Char → Bool) {l : List Char}
    (h : ∀ c ∈ l, p c = true) : dropLeading p l = [] := by
  induction l with
  | nil => rfl
  | cons a as ih =>
    rw [dropLeading, if_pos (h a (by simp))]
    exact ih fun c hc => h c (List.mem_cons_of_mem a hc)

theorem stripBoth_eq_nil_iff (p : Char → Bool) (l : List Char) :
    stripBoth p l = [] ↔ ∀ c ∈ l, p c = true := by
  constructor
  · intro h c hc
    obtain ⟨lw, tw, hl, hp1, hp2⟩ := stripBoth_decomp p l
    rw [hl, h] at hc
    simp only [List.append_nil, List.mem_append] at hc
    rcases hc with hc | hc
    · exact hp1 c hc
    · exact hp2 c hc
  · intro h
    rw [stripBoth, dropLeading_eq_nil p h, dropTrailing]
    simp [dropLeading]

theorem dropTrailing_head_false (p : Char → Bool) (X : List Char)
    (hX : ∀ c, X.head? = some c → p c = false) :
    ∀ c, (dropTrailing p X).head? = some c → p c = false := by
  intro c hc
  obtain ⟨w, hw, -⟩ := dropTrailing_decomp p X
  apply hX
  rcases hT : dropTrailing p X with _ | ⟨d, t⟩
  · rw [hT] at hc; simp at hc
  · rw [hT] at hc
    simp only [List.head?_cons, Option.some.injEq] at hc
    rw [hw, hT, ← hc]
    rfl

theorem stripBoth_idem (p : Char → Bool) (l : List Char) :
    stripBoth p (stripBoth p l) = stripBoth p l := by
  have h1 : dropLeading p (stripBoth p l) = stripBoth p l :=
    dropLeading_of_head_false _ _
      (dropTrailing_head_false p _ (dropLeading_head_false p l))
  have h2 : dropTrailing p (stripBoth p l) = stripBoth p l := by
    show dropTrailing p (dropTrailing p (dropLeading p l)) = _
    rw [dropTrailing, dropTrailing, List.reverse_reverse, dropLeading_idem]
    rfl
  show dropTrailing p (dropLeading p (stripBoth p l)) = stripBoth p l
  rw [h1, h2]

/-- C2 (amended): when a line contains time-pattern matches, the first
match supplies the task's time, but `re.sub` deletes every occurrence of
the pattern from the line, so a second time substring is removed from —
not left inside — the description. -/
theorem spec_C2 (rawLine pre m post : List Char)
    (h : searchTime (stripWS rawLine) = some (pre, m, post)) :
    ∀ t ∈ parseLine rawLine,
      parse_time m = some t.time ∧
      t.description =
        stripWS (collapseWS (stripBoth isSpaceDash (subTimeAll (stripWS rawLine)))) := by
  intro t ht
  simp only [parseLine] at ht
  by_cases h0 : stripWS rawLine = [] ∨ (stripWS rawLine).head? = some '#'
  · rw [if_pos h0] at ht
    simp at ht
  · rw [if_neg h0, h] at ht
    have ht2 : t ∈ (if stripWS (collapseWS (stripBoth isSpaceDash
          (subTimeAll (stripWS rawLine)))) = [] then ([] : List Task)
        else match mkTask m (stripWS (collapseWS (stripBoth isSpaceDash
            (subTimeAll (stripWS rawLine))))) with
          | some task => [task]
          | none => []) := ht
    clear ht
    by_cases hde :
      stripWS (collapseWS (stripBoth isSpaceDash (subTimeAll (stripWS rawLine)))) = []
    · rw [if_pos hde] at ht2
      simp at ht2
    · rw [if_neg hde] at ht2
      rcases hmk : mkTask m
          (stripWS (collapseWS (stripBoth isSpaceDash (subTimeAll (stripWS rawLine)))))
        with _ | task
      · rw [hmk] at ht2; simp at ht2
      · rw [hmk] at ht2
        simp only [List.mem_singleton] at ht2
        subst ht2
        rw [mkTask] at hmk
        rcases hpt : parse_time m with _ | tt
        · rw [hpt] at hmk; simp at hmk
        · rw [hpt] at hmk
          simp only [Option.map_some', Option.some.injEq] at hmk
          rw [← hmk]
          exact ⟨by simp [hpt], stripBoth_idem isSpaceC _⟩

theorem spec_C2_witness :
    parse_time ("10:00").data = some ⟨10, 0⟩ ∧
    (∀ t ∈ parseLine ("10:00 call mom 11:00").data,
      parse_time ("10:00").data = some t.time) := by
  refine ⟨by decide, fun t ht => ?_⟩
  exact (spec_C2 ("10:00 call mom 11:00").data [] ("10:00").data
    (" call mom 11:00").data (by decide) t ht).1

/-- C2 counterexample: on a line with two time-like substrings the parsed
task's description is the line with BOTH matches removed — the second
time substring does not remain embedded in the description. -/
theorem spec_C2_counterexample :
    parse_tasks_from_text ("10:00 call mom 11:00").data =
      [⟨⟨10, 0⟩, ("call mom").data⟩] ∧
    (∀ c ∈ (("call mom").data : List Char), isDigitC c = false) ∧
    ("call mom").data ≠ ("call mom 11:00").data := by
  exact ⟨by decide, by decide, by decide⟩

theorem isSpaceC_class_false {c : Char} (h : isSpaceC c = true) :
    isColon c = false ∧ isZeroToFive c = false ∧ isZeroOne c = false ∧
    isTwo c = false ∧ isZeroToThree c = false := by
  rw [isSpaceC_iff] at h
  simp only [isColon, isZeroToFive, isZeroOne, isTwo, isZeroToThree,
    decide_eq_false_iff_not]
  omega

theorem tailBoundary_append_ws {tw : List Char} (htw : ∀ c ∈ tw, isSpaceC c = true)
    (rest : List Char) : tailBoundary (rest ++ tw) = tailBoundary rest := by
  cases rest with
  | nil =>
    cases tw with
    | nil => rfl
    | cons w tws =>
      simp only [List.nil_append, tailBoundary]
      simp [isSpaceC_not_word (htw w (by simp))]
  | cons x xs => rfl

theorem finishMM_append_ws {tw : List Char} (htw : ∀ c ∈ tw, isSpaceC c = true)
    (l : List Char) :
    finishMM (l ++ tw) = (finishMM l).map fun p => (p.1, p.2 ++ tw) := by
  match l with
  | c :: m1 :: m2 :: rest =>
    simp only [List.cons_append, finishMM, tailBoundary_append_ws htw rest]
    split
    · simp
    · simp
  | [] =>
    match tw, htw with
    | [], _ => rfl
    | [w1], htw => simp [finishMM]
    | [w1, w2], htw => simp [finishMM]
    | w1 :: w2 :: w3 :: tws, htw =>
      have h1 := (isSpaceC_class_false (htw w1 (by simp))).1
      simp [finishMM, h1]
  | [c] =>
    match tw, htw with
    | [], _ => simp [finishMM]
    | [w1], htw => simp [finishMM]
    | w1 :: w2 :: tws, htw =>
      have h5 := (isSpaceC_class_false (htw w1 (by simp))).2.1
      simp [finishMM, h5]
  | [c, m1] =>
    match tw, htw with
    | [], _ => simp [finishMM]
    | w1 :: tws, htw =>
      have hd := isSpaceC_not_digit (htw w1 (by simp))
      simp [finishMM, hd]

theorem tryMatchAt_ws_head {pw : Bool} {c : Char} {cs : List Char}
    (h : isSpaceC c = true) : tryMatchAt pw (c :: cs) = none := by
  obtain ⟨h1, h2, h3, h4, h5⟩ := isSpaceC_class_false h
  have hd := isSpaceC_not_digit h
  match pw, cs with
  | true, _ => rfl
  | false, [] => rfl
  | false, c2 :: cs2 => simp [tryMatchAt, h3, h4, hd]

theorem option_orElse_map {α β : Type} (a b c : Option α) (f : α → β) :
    (a.map f <|> (b.map f <|> c.map f)) = (a <|> (b <|> c)).map f := by
  cases a <;> cases b <;> cases c <;> rfl

theorem tryMatchAt_append_ws {tw : List Char} (htw : ∀ c ∈ tw, isSpaceC c = true)
    (pw : Bool) (l : List Char) :
    tryMatchAt pw (l ++ tw) = (tryMatchAt pw l).map fun p => (p.1, p.2 ++ tw) := by
  match pw, l with
  | true, l => rfl
  | false, [] =>
    simp only [List.nil_append]
    match tw, htw with
    | [], _ => rfl
    | w :: tws, htw =>
      rw [tryMatchAt_ws_head (htw w (by simp)), tryMatchAt_nil]
      rfl
  | false, [c1] =>
    match tw, htw with
    | [], _ => simp
    | w :: tws, htw =>
      have hd := isSpaceC_not_digit (htw w (by simp))
      have h1 := isSpaceC_class_false (htw w (by simp))
      have hfin : finishMM (w :: tws) = none := by
        have h0 := finishMM_append_ws htw ([] : List Char)
        simpa using h0
      simp [tryMatchAt, hd, h1.2.2.2.2, hfin]
  | false, c1 :: c2 :: rest2 =>
    simp only [List.cons_append]
    rw [tryMatchAt, tryMatchAt]
    rw [finishMM_append_ws htw rest2,
      show (c2 :: (rest2 ++ tw)) = (c2 :: rest2) ++ tw from rfl,
      finishMM_append_ws htw (c2 :: rest2)]
    have e1 : (if isZeroOne c1 ∧ isDigitC c2 then
          ((finishMM rest2).map fun p => (p.1, p.2 ++ tw)).map
            (fun p => (c1 :: c2 :: p.1, p.2)) else none) =
        (if isZeroOne c1 ∧ isDigitC c2 then
          (finishMM rest2).map fun p => (c1 :: c2 :: p.1, p.2) else none).map
          (fun p => (p.1, p.2 ++ tw)) := by
      split
      · simp [Option.map_map]; rfl
      · simp
    have e2 : (if isDigitC c1 then
          ((finishMM (c2 :: rest2)).map fun p => (p.1, p.2 ++ tw)).map
            (fun p => (c1 :: p.1, p.2)) else none) =
        (if isDigitC c1 then
          (finishMM (c2 :: rest2)).map fun p => (c1 :: p.1, p.2) else none).map
          (fun p => (p.1, p.2 ++ tw)) := by
      split
      · simp [Option.map_map]; rfl
      · simp
    have e3 : (if isTwo c1 ∧ isZeroToThree c2 then
          ((finishMM rest2).map fun p => (p.1, p.2 ++ tw)).map
            (fun p => (c1 :: c2 :: p.1, p.2)) else none) =
        (if isTwo c1 ∧ isZeroToThree c2 then
          (finishMM rest2).map fun p => (c1 :: c2 :: p.1, p.2) else none).map
          (fun p => (p.1, p.2 ++ tw)) := by
      split
      · simp [Option.map_map]; rfl
      · simp
    rw [e1, e2, e3, option_orElse_map]

theorem searchFrom_ws_none {tw : List Char} (htw : ∀ c ∈ tw, isSpaceC c = true)
    (pw : Bool) : searchFrom pw tw = none := by
  induction tw generalizing pw with
  | nil => rw [searchFrom, tryMatchAt_nil]
  | cons w tws ih =>
    rw [searchFrom, tryMatchAt_ws_head (htw w (by simp))]
    rw [ih (fun c hc => htw c (List.mem_cons_of_mem w hc))]
    rfl

theorem searchFrom_append_ws {tw : List Char} (htw : ∀ c ∈ tw, isSpaceC c = true)
    (pw : Bool) (l : List Char) :
    searchFrom pw (l ++ tw) =
      (searchFrom pw l).map fun p => (p.1, p.2.1, p.2.2 ++ tw) := by
  induction l generalizing pw with
  | nil =>
    simp only [List.nil_append]
    rw [searchFrom_ws_none htw, searchFrom, tryMatchAt_nil]
    rfl
  | cons c cs ih =>
    have ht := tryMatchAt_append_ws htw pw (c :: cs)
    rw [List.cons_append] at ht
    rw [List.cons_append, searchFrom, searchFrom, ht]
    rcases htm : tryMatchAt pw (c :: cs) with _ | ⟨m, rest⟩
    · simp only [Option.map_none']
      rw [ih (isWordChar c)]
      simp [Option.map_map]
      rfl
    · simp

theorem searchFrom_prepend_ws {lw : List Char} (hlw : ∀ c ∈ lw, isSpaceC c = true)
    (l : List Char) :
    searchFrom false (lw ++ l) =
      (searchFrom false l).map fun p => (lw ++ p.1, p.2.1, p.2.2) := by
  induction lw with
  | nil => simp
  | cons w lws ih =>
    rw [List.cons_append, searchFrom, tryMatchAt_ws_head (hlw w (by simp)),
      isSpaceC_not_word (hlw w (by simp))]
    rw [ih (fun c hc => hlw c (List.mem_cons_of_mem w hc))]
    simp [Option.map_map]
    rfl

theorem subAllFrom_ws {tw : List Char} (htw : ∀ c ∈ tw, isSpaceC c = true)
    (pw : Bool) : subAllFrom pw tw = tw := by
  induction tw generalizing pw with
  | nil => rfl
  | cons w tws ih =>
    rw [subAllFrom_nomatch (tryMatchAt_ws_head (htw w (by simp)))]
    rw [ih (fun c hc => htw c (List.mem_cons_of_mem w hc))]

theorem subAllFrom_append_ws_aux {tw : List Char} (htw : ∀ c ∈ tw, isSpaceC c = true) :
    ∀ n pw (l : List Char), l.length ≤ n →
      subAllFrom pw (l ++ tw) = subAllFrom pw l ++ tw := by
  intro n
  induction n with
  | zero =>
    intro pw l hl
    have : l = [] := List.length_eq_zero.mp (Nat.le_zero.mp hl)
    subst this
    simp [subAllFrom_ws htw, subAllFrom_nil]
  | succ n ih =>
    intro pw l hl
    rcases htm : tryMatchAt pw l with _ | ⟨m, rest⟩
    · cases l with
      | nil => simp [subAllFrom_ws htw, subAllFrom_nil]
      | cons c cs =>
        have htm2 : tryMatchAt pw (c :: (cs ++ tw)) = none := by
          have := tryMatchAt_append_ws htw pw (c :: cs)
          rw [htm] at this
          simpa using this
        rw [List.cons_append, subAllFrom_nomatch htm2, subAllFrom_nomatch htm]
        simp only [List.length_cons] at hl
        rw [ih (isWordChar c) cs (by omega)]
        rfl
    · have htm2 : tryMatchAt pw (l ++ tw) = some (m, rest ++ tw) := by
        rw [tryMatchAt_append_ws htw, htm]
        rfl
      rw [subAllFrom_match htm2, subAllFrom_match htm]
      have hlt := tryMatchAt_rest_length htm
      exact ih true rest (by omega)

theorem subAllFrom_append_ws {tw : List Char} (htw : ∀ c ∈ tw, isSpaceC c = true)
    (pw : Bool) (l : List Char) :
    subAllFrom pw (l ++ tw) = subAllFrom pw l ++ tw :=
  subAllFrom_append_ws_aux htw l.length pw l le_rfl

theorem subAllFrom_prepend_ws {lw : List Char} (hlw : ∀ c ∈ lw, isSpaceC c = true)
    (l : List Char) :
    subAllFrom false (lw ++ l) = lw ++ subAllFrom false l := by
  induction lw with
  | nil => simp
  | cons w lws ih =>
    rw [List.cons_append, subAllFrom_nomatch (tryMatchAt_ws_head (hlw w (by simp))),
      isSpaceC_not_word (hlw w (by simp))]
    rw [ih (fun c hc => hlw c (List.mem_cons_of_mem w hc))]
    rfl

theorem parse_tasks_single {s : List Char} (h : '\n' ∉ s) :
    parse_tasks_from_text s = parseLine s := by
  rw [parse_tasks_from_text, splitNl_no_nl h]
  simp

theorem validate_of (s pre m post : List Char)
    (hs : searchTime s = some (pre, m, post))
    (hd : stripBoth isSpaceDash (subTimeAll s) ≠ []) :
    validate_task_input s = true := by
  have h2 : validate_task_input s =
      (if stripBoth isSpaceDash (subTimeAll s) = [] then false
       else (mkTask m (stripBoth isSpaceDash (subTimeAll s))).isSome) := by
    rw [validate_task_input, hs]
  rw [h2, if_neg hd]
  have hv := searchTime_token_valid hs
  rw [← parse_time_isSome_eq_coreTime] at hv
  simpa [mkTask] using hv

/-- C10 (amended): `validate_task_input` accepts every single line the
parser turns into exactly one task — but not only those: the converse of
the implicit equivalence fails (see the counterexample).  On a comment
line carrying a time token and a non-trivial remainder, validation
accepts while parsing yields nothing. -/
theorem spec_C10 :
    (∀ s : List Char, '\n' ∉ s →
      (parse_tasks_from_text s).length = 1 → validate_task_input s = true) ∧
    (∀ s : List Char, '\n' ∉ s → (stripWS s).head? = some '#' →
      parse_tasks_from_text s = [] ∧
      (∀ pre m post, searchTime s = some (pre, m, post) →
        stripBoth isSpaceDash (subTimeAll s) ≠ [] →
        validate_task_input s = true)) := by
  constructor
  · intro s hnl hlen
    rw [parse_tasks_single hnl] at hlen
    simp only [parseLine] at hlen
    by_cases h0 : stripWS s = [] ∨ (stripWS s).head? = some '#'
    · rw [if_pos h0] at hlen
      simp at hlen
    · rw [if_neg h0] at hlen
      rcases hsl : searchTime (stripWS s) with _ | ⟨⟨pre, m, post⟩⟩
      · rw [hsl] at hlen
        simp at hlen
      · rw [hsl] at hlen
        have hlen2 : (if stripWS (collapseWS (stripBoth isSpaceDash
              (subTimeAll (stripWS s)))) = [] then ([] : List Task)
            else match mkTask m (stripWS (collapseWS (stripBoth isSpaceDash
                (subTimeAll (stripWS s))))) with
              | some task => [task]
              | none => []).length = 1 := hlen
        have hD : stripWS (collapseWS (stripBoth isSpaceDash
            (subTimeAll (stripWS s)))) ≠ [] := by
          intro hnil
          rw [if_pos hnil] at hlen2
          simp at hlen2
        obtain ⟨lw, tw, hsdecomp, hlwws, htwws⟩ := stripBoth_decomp isSpaceC s
        have hs' : s = lw ++ stripWS s ++ tw := hsdecomp
        have hslf : searchFrom false (stripWS s) = some (pre, m, post) := hsl
        have hsearch : searchTime s = some (lw ++ pre, m, post ++ tw) := by
          show searchFrom false s = _
          conv_lhs => rw [hs']
          rw [List.append_assoc, searchFrom_prepend_ws hlwws,
            searchFrom_append_ws htwws, hslf]
          rfl
        have hd1 : stripBoth isSpaceDash (subTimeAll (stripWS s)) ≠ [] := by
          intro hnil
          exact hD (by rw [hnil]; rfl)
        have hc : ∃ c ∈ subTimeAll (stripWS s), isSpaceDash c = false := by
          by_contra hall
          push_neg at hall
          refine hd1 ((stripBoth_eq_nil_iff _ _).mpr fun c hcmem => ?_)
          have := hall c hcmem
          revert this
          cases isSpaceDash c <;> simp
        obtain ⟨c0, hc0mem, hc0⟩ := hc
        have hdv : stripBoth isSpaceDash (subTimeAll s) ≠ [] := by
          intro hnil
          rw [stripBoth_eq_nil_iff] at hnil
          have hsub : subAllFrom false s =
              lw ++ (subAllFrom false (stripWS s) ++ tw) := by
            conv_lhs => rw [hs']
            rw [List.append_assoc, subAllFrom_prepend_ws hlwws,
              subAllFrom_append_ws htwws]
          have hmem : c0 ∈ subTimeAll s := by
            show c0 ∈ subAllFrom false s
            rw [hsub]
            simp only [List.mem_append]
            exact Or.inr (Or.inl hc0mem)
          have hbad := hnil c0 hmem
          rw [hc0] at hbad
          exact absurd hbad (by simp)
        exact validate_of s _ _ _ hsearch hdv
  · intro s hnl hhash
    constructor
    · rw [parse_tasks_single hnl]
      simp only [parseLine]
      rw [if_pos (Or.inr hhash)]
    · intro pre m post hs hd
      exact validate_of s pre m post hs hd

theorem spec_C10_witness :
    validate_task_input ("10:00 - ok").data = true ∧
    parse_tasks_from_text ("# 12:30 meeting").data = [] ∧
    validate_task_input ("# 12:30 meeting").data = true := by
  refine ⟨spec_C10.1 ("10:00 - ok").data (by decide) (by decide), ?_, ?_⟩
  · exact (spec_C10.2 ("# 12:30 meeting").data (by decide) (by decide)).1
  · exact (spec_C10.2 ("# 12:30 meeting").data (by decide) (by decide)).2
      ['#', ' '] ("12:30").data (" meeting").data (by decide) (by decide)

/-- C10 counterexample: a single non-comment line with a trailing tab:
its trimmed form is non-empty and not a comment, `validate_task_input`
accepts it, yet `parse_tasks_from_text` yields no task — refuting the
claimed equivalence. -/
theorem spec_C10_counterexample :
    stripWS ("12:30 -\t").data ≠ [] ∧
    (stripWS ("12:30 -\t").data).head? ≠ some '#' ∧
    validate_task_input ("12:30 -\t").data = true ∧
    parse_tasks_from_text ("12:30 -\t").data = [] := by
  exact ⟨by decide, by decide, by decide, by decide⟩

theorem spec_C8_witness :
    (monitor_tasks [TickOutcome.ok, TickOutcome.raiseError,
      TickOutcome.raiseCancelled]).monitoring = false ∧
    (monitor_tasks [TickOutcome.ok, TickOutcome.raiseError,
      TickOutcome.raiseCancelled]).raised = some Exc.cancelledError :=
  ⟨(spec_C8 [TickOutcome.ok, TickOutcome.raiseError, TickOutcome.raiseCancelled]).1,
   (spec_C8 [TickOutcome.ok, TickOutcome.raiseError,
      TickOutcome.raiseCancelled]).2.1.mpr (by decide)⟩

end TaskManager
